import Mathlib

/-!
Verification of the dimensional-boundary-loss repository: the Φ metric
calculator (`PhiCalculator.calculate_phi` in
`validate_dimensional_cascade_multisize.py`), the dimensional embedder, and
the per-trial ratio/loss computation of the cascade validator.

Patterns are n-dimensional binary lattices.  A pattern is modelled as its
shape (the list of axis extents) together with its cell contents, addressed
by row-major multi-index; binary cells (0/1 integers in the source) are
modelled as `Bool`.  Counting quantities (cell counts, transition counts) are
natural numbers, the normalized integration component is an exact rational,
and the entropy layer lives in `ℝ` (the source computes it with
floating-point `np.log2`; the model is the exact real computation).
-/

namespace DimensionalBoundaryLoss

/-- An n-dimensional binary lattice pattern: the shape (list of axis
extents) together with the cell contents, addressed by row-major
multi-index. -/
structure Pattern where
  shape : List Nat
  data : List Nat → Bool

/-- All multi-indices of a given shape, in row-major order. -/
def indices : List Nat → List (List Nat)
  | [] => [[]]
  | s :: rest => (List.range s).flatMap fun i => (indices rest).map fun t => i :: t

/-- Whole cell count of the lattice: `len(pattern.flatten())` /
`pattern.size`. -/
def nCells (P : Pattern) : Nat := P.shape.prod

/-- Number of set ("alive") cells: `np.sum(flat)` on a binary array. -/
def aliveCells (P : Pattern) : Nat :=
  ((indices P.shape).filter fun idx => P.data idx).length

/-- Index that `np.roll(pattern, 1, axis)` reads at `idx`: the component
along `axis` moves back by one position with wrap-around. -/
def rollIdx (shape : List Nat) (axis : Nat) (idx : List Nat) : List Nat :=
  idx.set axis ((idx.getD axis 0 + shape.getD axis 0 - 1) % shape.getD axis 0)

/-- Per-axis transition count: `np.sum(pattern != np.roll(pattern, 1,
axis))`, the number of positions whose value differs from that of the cyclic
predecessor along `axis`. -/
def transitionsAlong (P : Pattern) (axis : Nat) : Nat :=
  ((indices P.shape).filter fun idx =>
    P.data idx != P.data (rollIdx P.shape axis idx)).length

/-- Model of `PhiCalculator._calculate_integration`: loop over the axes,
accumulating the transition count and the edge total (`pattern.size` per
axis), then normalize; `0.0` when there are no edges. -/
def calculate_integration (P : Pattern) : ℚ :=
  let acc := (List.range P.shape.length).foldl
    (fun acc axis => (acc.1 + transitionsAlong P axis, acc.2 + nCells P)) (0, 0)
  if 0 < acc.2 then (acc.1 : ℚ) / (acc.2 : ℚ) else 0

/-- Transition count summed over all axes; the numerator accumulated by
`_calculate_integration`. -/
def transitionsTotal (P : Pattern) : Nat :=
  ((List.range P.shape.length).map fun axis => transitionsAlong P axis).sum

/-- Result 4-tuple `(phi, R, S, D)` of `PhiCalculator.calculate_phi`. -/
structure PhiResult where
  phi : ℝ
  R : ℝ
  S : ℝ
  D : ℝ

/-- Model of `PhiCalculator.calculate_phi`: degenerate patterns (all dead or
all alive) short-circuit to `(0, 0, 0, 0)`; otherwise `R` is the alive-cell
fraction, `S` the integration component, `D` the base-2 Shannon entropy of
the alive fraction, and `phi = R * S + D`. -/
noncomputable def calculate_phi (P : Pattern) : PhiResult :=
  let n_cells := nCells P
  let alive_cells := aliveCells P
  if alive_cells = 0 ∨ alive_cells = n_cells then ⟨0, 0, 0, 0⟩
  else
    let R : ℝ := (alive_cells : ℝ) / (n_cells : ℝ)
    let S : ℝ := ((calculate_integration P : ℚ) : ℝ)
    let p_alive : ℝ := (alive_cells : ℝ) / (n_cells : ℝ)
    let p_dead : ℝ := 1 - p_alive
    let D : ℝ := -(p_alive * Real.logb 2 p_alive + p_dead * Real.logb 2 p_dead)
    ⟨R * S + D, R, S, D⟩

/-- Model of the dimensional embedder (`embed_1d_to_2d` and the embedding
steps of `test_2d_to_3d` / `test_3d_to_4d`): a fresh all-zero array with one
further axis of extent `m`, whose slice at index `m / 2` along the new axis
carries the source pattern.  The model is a pure function, so the input
pattern is intrinsically never mutated. -/
def embed (P : Pattern) (m : Nat) : Pattern where
  shape := P.shape ++ [m]
  data := fun idx => (idx.getLast? == some (m / 2)) && P.data idx.dropLast

/-- The embedding as executed by numpy: assigning the source into slice
`m / 2` of the new axis raises an index error when that index is out of
bounds, which happens exactly when `m = 0`. -/
def embedChecked (P : Pattern) (m : Nat) : Option Pattern :=
  if m / 2 < m then some (embed P m) else none

/-- Configuration record stored by `DimensionalCascadeValidator.__init__`. -/
structure DimensionalCascadeValidator where
  n_patterns : Int
  grid_size : Int
deriving DecidableEq

/-- Model of `DimensionalCascadeValidator.__init__`.  The result type is
`Except` so that presence or absence of configuration validation can be
stated; the source constructor stores the two fields and performs no check,
so the model always succeeds. -/
def mkValidator (n_patterns grid_size : Int) :
    Except String DimensionalCascadeValidator :=
  Except.ok ⟨n_patterns, grid_size⟩

/-- Per-trial record emitted by the cascade validator (the fields of the
dictionary built by `test_1d_to_2d` and its 2D→3D / 3D→4D twins that the
claims are about). -/
structure TrialResult where
  phi_lower : ℝ
  phi_higher : ℝ
  ratio_phi : ℝ
  loss_pct : ℝ
  alive_cells_lower : Nat
  alive_cells_higher : Nat

/-- Model of one cascade-validator trial (`test_1d_to_2d` and its twins,
generic in rank): measure the lower pattern, embed it with new-axis extent
`m`, measure again, and compute `ratio = phi_higher / phi_lower` guarded by
`if phi_lower > 0 else 0`, and `loss_pct = (1 - ratio) * 100`. -/
noncomputable def runTrial (P : Pattern) (m : Nat) : TrialResult :=
  let lo := calculate_phi P
  let hi := calculate_phi (embed P m)
  let r : ℝ := if 0 < lo.phi then hi.phi / lo.phi else 0
  ⟨lo.phi, hi.phi, r, (1 - r) * 100, aliveCells P, aliveCells (embed P m)⟩

/-- Spec's formula for the integration component: the transition counts of
all axes summed, divided by rank times cell count (`ℚ`-division, which is 0
when the denominator is 0, matching the source's explicit 0 fallback for a
zero edge total). -/
def S_spec (P : Pattern) : ℚ :=
  ((((List.range P.shape.length).map fun axis => transitionsAlong P axis).sum : Nat) : ℚ)
    / ((P.shape.length * nCells P : Nat) : ℚ)

/-- Uniformly dead 1D pattern of extent 3, a degenerate input. -/
def zeroPat : Pattern := ⟨[3], fun _ => false⟩

/-- Smallest non-degenerate pattern: 1D extent 2 with exactly cell 0 set. -/
def pat2 : Pattern := ⟨[2], fun idx => idx.getD 0 0 == 0⟩

/-- The 20×20 checkerboard of `test_metric_sanity_check.py`: cell `(i, j)`
set iff `i + j` is even. -/
def checkerboard : Pattern :=
  ⟨[20, 20], fun idx => (idx.getD 0 0 + idx.getD 1 0) % 2 == 0⟩

/-! ## Combinatorial helper lemmas -/

lemma flatMap_singleton_map (l : List α) (f : α → β) :
    (l.flatMap fun a => [f a]) = l.map f := by
  induction l with
  | nil => rfl
  | cons a t ih => simp [List.flatMap_cons, ih]

lemma length_indices (s : List Nat) : (indices s).length = s.prod := by
  induction s with
  | nil => simp [indices]
  | cons a rest ih =>
    rw [show indices (a :: rest)
        = (List.range a).flatMap fun i => (indices rest).map fun t => i :: t from rfl]
    rw [List.length_flatMap]
    simp only [Function.comp_def, List.length_map, ih]
    rw [List.map_const', List.sum_replicate, List.length_range, smul_eq_mul,
      List.prod_cons]

lemma indices_append_singleton (s : List Nat) (m : Nat) :
    indices (s ++ [m])
      = (indices s).flatMap fun t => (List.range m).map fun j => t ++ [j] := by
  induction s with
  | nil =>
    simp [indices, flatMap_singleton_map]
  | cons a rest ih =>
    simp only [List.cons_append, indices, List.append_eq, ih, List.map_flatMap,
      List.map_map, Function.comp_def, List.flatMap_assoc, List.flatMap_map,
      List.cons_append]

lemma length_filter_flatMap (l : List α) (f : α → List β) (p : β → Bool) :
    ((l.flatMap f).filter p).length
      = (l.map fun a => ((f a).filter p).length).sum := by
  induction l with
  | nil => simp
  | cons a t ih => simp [List.flatMap_cons, List.filter_append, ih]

lemma length_filter_beq_range (m k : Nat) (hk : k < m) :
    ((List.range m).filter fun j => j == k).length = 1 := by
  induction m with
  | zero => omega
  | succ m ih =>
    rw [List.range_succ, List.filter_append]
    rcases Nat.lt_or_ge k m with h | h
    · have hm : (m == k) = false := by simp; omega
      simp [hm, ih h]
    · have hkm : k = m := by omega
      have h0 : ((List.range m).filter fun j => j == k) = [] := by
        rw [List.filter_eq_nil_iff]
        intro a ha
        simp only [List.mem_range] at ha
        simp
        omega
      simp [h0, hkm]
      omega

lemma sum_map_ite_length (l : List α) (p : α → Bool) :
    (l.map fun a => if p a then 1 else 0).sum = (l.filter p).length := by
  induction l with
  | nil => rfl
  | cons a t ih =>
    by_cases h : p a <;> simp [List.filter_cons, h, ih, Nat.add_comm]

lemma foldl_pair (l : List Nat) (f : Nat → Nat) (c : Nat) (x y : Nat) :
    l.foldl (fun acc a => (acc.1 + f a, acc.2 + c)) (x, y)
      = (x + (l.map f).sum, y + l.length * c) := by
  induction l generalizing x y with
  | nil => simp
  | cons a t ih =>
    simp only [List.foldl_cons, List.map_cons, List.sum_cons, List.length_cons, ih]
    simp only [Prod.mk.injEq]
    constructor
    · ring
    · ring

/-! ## Properties of the embedded operations -/

lemma aliveCells_embed (P : Pattern) (m : Nat) (hm : 1 ≤ m) :
    aliveCells (embed P m) = aliveCells P := by
  have hmid : m / 2 < m := Nat.div_lt_self hm (by norm_num)
  show ((indices (P.shape ++ [m])).filter fun idx =>
      (idx.getLast? == some (m / 2)) && P.data idx.dropLast).length = aliveCells P
  rw [indices_append_singleton, length_filter_flatMap]
  have key : ∀ t : List Nat,
      ((((List.range m).map fun j => t ++ [j]).filter fun idx =>
        (idx.getLast? == some (m / 2)) && P.data idx.dropLast).length)
      = if P.data t then 1 else 0 := by
    intro t
    rw [List.filter_map, List.length_map]
    by_cases h : P.data t
    · simp only [Function.comp_def, List.getLast?_concat, List.dropLast_concat, h,
        Bool.and_true]
      have : (fun j => (some j == some (m / 2)) : Nat → Bool) = fun j => j == m / 2 := by
        funext j
        simp
      rw [this]
      exact length_filter_beq_range m (m / 2) hmid
    · simp only [Function.comp_def, List.getLast?_concat, List.dropLast_concat, h,
        Bool.and_false]
      simp
  simp only [key]
  rw [sum_map_ite_length]
  rfl

lemma calculate_integration_eq (P : Pattern) :
    calculate_integration P =
      if 0 < P.shape.length * nCells P
      then (transitionsTotal P : ℚ) / ((P.shape.length * nCells P : Nat) : ℚ)
      else 0 := by
  unfold calculate_integration transitionsTotal
  rw [foldl_pair]
  simp [List.length_range]

lemma aliveCells_le (P : Pattern) : aliveCells P ≤ nCells P := by
  calc aliveCells P ≤ (indices P.shape).length := List.length_filter_le _ _
    _ = nCells P := length_indices _

lemma transitionsAlong_le (P : Pattern) (axis : Nat) :
    transitionsAlong P axis ≤ nCells P := by
  calc transitionsAlong P axis ≤ (indices P.shape).length := List.length_filter_le _ _
    _ = nCells P := length_indices _

lemma transitionsTotal_le (P : Pattern) :
    transitionsTotal P ≤ P.shape.length * nCells P := by
  unfold transitionsTotal
  have h := List.sum_le_card_nsmul
    ((List.range P.shape.length).map fun axis => transitionsAlong P axis) (nCells P) ?_
  · simpa [List.length_map, List.length_range, smul_eq_mul] using h
  · intro x hx
    obtain ⟨axis, -, rfl⟩ := List.mem_map.mp hx
    exact transitionsAlong_le P axis

lemma calculate_integration_nonneg (P : Pattern) : 0 ≤ calculate_integration P := by
  rw [calculate_integration_eq]
  split
  · positivity
  · exact le_refl 0

lemma calculate_integration_le_one (P : Pattern) : calculate_integration P ≤ 1 := by
  rw [calculate_integration_eq]
  split
  · next h =>
    rw [div_le_one (by exact_mod_cast h)]
    exact_mod_cast transitionsTotal_le P
  · norm_num

lemma calculate_phi_degenerate (P : Pattern)
    (h : aliveCells P = 0 ∨ aliveCells P = nCells P) :
    calculate_phi P = ⟨0, 0, 0, 0⟩ := by
  unfold calculate_phi
  rw [if_pos h]

lemma calculate_phi_nondeg (P : Pattern)
    (h : ¬(aliveCells P = 0 ∨ aliveCells P = nCells P)) :
    calculate_phi P =
      ⟨(aliveCells P : ℝ) / (nCells P : ℝ) * ((calculate_integration P : ℚ) : ℝ)
          + -((aliveCells P : ℝ) / (nCells P : ℝ)
              * Real.logb 2 ((aliveCells P : ℝ) / (nCells P : ℝ))
            + (1 - (aliveCells P : ℝ) / (nCells P : ℝ))
              * Real.logb 2 (1 - (aliveCells P : ℝ) / (nCells P : ℝ))),
        (aliveCells P : ℝ) / (nCells P : ℝ),
        ((calculate_integration P : ℚ) : ℝ),
        -((aliveCells P : ℝ) / (nCells P : ℝ)
            * Real.logb 2 ((aliveCells P : ℝ) / (nCells P : ℝ))
          + (1 - (aliveCells P : ℝ) / (nCells P : ℝ))
            * Real.logb 2 (1 - (aliveCells P : ℝ) / (nCells P : ℝ)))⟩ := by
  unfold calculate_phi
  rw [if_neg h]

lemma entropy_eq_binEntropy_div_log (p : ℝ) :
    -(p * Real.logb 2 p + (1 - p) * Real.logb 2 (1 - p))
      = Real.binEntropy p / Real.log 2 := by
  simp [Real.binEntropy, Real.logb, Real.log_inv]
  ring

lemma nondeg_frac_bounds (P : Pattern)
    (h : ¬(aliveCells P = 0 ∨ aliveCells P = nCells P)) :
    0 < (aliveCells P : ℝ) / (nCells P : ℝ)
      ∧ (aliveCells P : ℝ) / (nCells P : ℝ) < 1 := by
  push_neg at h
  have h0 : 0 < aliveCells P := Nat.pos_of_ne_zero h.1
  have h1 : aliveCells P < nCells P := lt_of_le_of_ne (aliveCells_le P) h.2
  have hn : 0 < nCells P := lt_of_le_of_lt (Nat.zero_le _) h1
  constructor
  · exact div_pos (by exact_mod_cast h0) (by exact_mod_cast hn)
  · rw [div_lt_one (by exact_mod_cast hn)]
    exact_mod_cast h1

lemma calculate_phi_pos (P : Pattern)
    (h : ¬(aliveCells P = 0 ∨ aliveCells P = nCells P)) :
    0 < (calculate_phi P).phi := by
  rw [calculate_phi_nondeg P h]
  obtain ⟨hp0, hp1⟩ := nondeg_frac_bounds P h
  have hD : 0 < -((aliveCells P : ℝ) / (nCells P : ℝ)
      * Real.logb 2 ((aliveCells P : ℝ) / (nCells P : ℝ))
    + (1 - (aliveCells P : ℝ) / (nCells P : ℝ))
      * Real.logb 2 (1 - (aliveCells P : ℝ) / (nCells P : ℝ))) := by
    rw [entropy_eq_binEntropy_div_log]
    exact div_pos (Real.binEntropy_pos hp0 hp1) (Real.log_pos one_lt_two)
  have hS : (0:ℝ) ≤ ((calculate_integration P : ℚ) : ℝ) := by
    exact_mod_cast calculate_integration_nonneg P
  have hRS : (0:ℝ) ≤ (aliveCells P : ℝ) / (nCells P : ℝ)
      * ((calculate_integration P : ℚ) : ℝ) := mul_nonneg hp0.le hS
  show 0 < (aliveCells P : ℝ) / (nCells P : ℝ)
      * ((calculate_integration P : ℚ) : ℝ)
    + -((aliveCells P : ℝ) / (nCells P : ℝ)
        * Real.logb 2 ((aliveCells P : ℝ) / (nCells P : ℝ))
      + (1 - (aliveCells P : ℝ) / (nCells P : ℝ))
        * Real.logb 2 (1 - (aliveCells P : ℝ) / (nCells P : ℝ)))
  linarith

lemma runTrial_phi_lower (P : Pattern) (m : Nat) :
    (runTrial P m).phi_lower = (calculate_phi P).phi := rfl

lemma runTrial_phi_higher (P : Pattern) (m : Nat) :
    (runTrial P m).phi_higher = (calculate_phi (embed P m)).phi := rfl

lemma runTrial_ratio_phi (P : Pattern) (m : Nat) :
    (runTrial P m).ratio_phi =
      if 0 < (calculate_phi P).phi
      then (calculate_phi (embed P m)).phi / (calculate_phi P).phi else 0 := rfl

lemma runTrial_loss_pct (P : Pattern) (m : Nat) :
    (runTrial P m).loss_pct = (1 - (runTrial P m).ratio_phi) * 100 := rfl

lemma runTrial_alive_lower (P : Pattern) (m : Nat) :
    (runTrial P m).alive_cells_lower = aliveCells P := rfl

lemma runTrial_alive_higher (P : Pattern) (m : Nat) :
    (runTrial P m).alive_cells_higher = aliveCells (embed P m) := rfl

lemma embed_data_concat (P : Pattern) (m : Nat) (idx : List Nat) :
    (embed P m).data (idx ++ [m / 2]) = P.data idx := by
  simp [embed, List.getLast?_concat, List.dropLast_concat]

lemma embed_data_off_slice (P : Pattern) (m : Nat) (idx : List Nat)
    (h : idx.getLast? ≠ some (m / 2)) : (embed P m).data idx = false := by
  show ((idx.getLast? == some (m / 2)) && P.data idx.dropLast) = false
  cases hbe : (idx.getLast? == some (m / 2)) with
  | false => simp
  | true =>
    exfalso
    exact h (by simpa using hbe)

lemma embed_mem_indices (P : Pattern) (m : Nat) (hm : 1 ≤ m) (idx : List Nat)
    (hidx : idx ∈ indices P.shape) :
    idx ++ [m / 2] ∈ indices (embed P m).shape := by
  show idx ++ [m / 2] ∈ indices (P.shape ++ [m])
  rw [indices_append_singleton]
  exact List.mem_flatMap.mpr ⟨idx, hidx, List.mem_map.mpr
    ⟨m / 2, List.mem_range.mpr (Nat.div_lt_self hm (by norm_num)), rfl⟩⟩

/-! ## Concrete evaluations -/

set_option maxRecDepth 10000 in
lemma aliveCells_checkerboard : aliveCells checkerboard = 200 := by decide

set_option maxRecDepth 40000 in
lemma transitionsTotal_checkerboard : transitionsTotal checkerboard = 800 := by decide

lemma calculate_integration_checkerboard : calculate_integration checkerboard = 1 := by
  rw [calculate_integration_eq]
  have h1 : checkerboard.shape.length = 2 := rfl
  have h2 : nCells checkerboard = 400 := rfl
  rw [transitionsTotal_checkerboard, h1, h2]
  norm_num

lemma logb_two_half : Real.logb 2 (1 / 2) = -1 := by
  rw [show (1 / 2 : ℝ) = 2⁻¹ by norm_num, Real.logb_inv,
    Real.logb_self_eq_one one_lt_two]

lemma checkerboard_phi_value : (calculate_phi checkerboard).phi = 3 / 2 := by
  have hnd : ¬(aliveCells checkerboard = 0
      ∨ aliveCells checkerboard = nCells checkerboard) := by
    rw [aliveCells_checkerboard, show nCells checkerboard = 400 from rfl]
    norm_num
  rw [calculate_phi_nondeg checkerboard hnd]
  simp only [aliveCells_checkerboard, calculate_integration_checkerboard,
    show nCells checkerboard = 400 from rfl]
  have hf : ((200 : Nat) : ℝ) / ((400 : Nat) : ℝ) = 1 / 2 := by norm_num
  rw [hf]
  have h1 : (1 : ℝ) - 1 / 2 = 1 / 2 := by norm_num
  rw [h1, logb_two_half]
  push_cast
  ring

/-! ## Claim theorems -/

/-- C1: for every binary pattern whose set-cell count is 0 or equals the
total cell count (uniform-zero or uniform-one, of any rank and shape),
`calculate_phi` returns exactly `(0, 0, 0, 0)`. -/
theorem calculate_phi_uniform_eq_zero (P : Pattern)
    (h : aliveCells P = 0 ∨ aliveCells P = nCells P) :
    calculate_phi P = ⟨0, 0, 0, 0⟩ :=
  calculate_phi_degenerate P h

/-- Witness for C1 at the concrete uniform-zero pattern `zeroPat`. -/
theorem calculate_phi_uniform_eq_zero_witness :
    (aliveCells zeroPat = 0 ∨ aliveCells zeroPat = nCells zeroPat)
      ∧ calculate_phi zeroPat = ⟨0, 0, 0, 0⟩ :=
  ⟨Or.inl rfl, calculate_phi_uniform_eq_zero zeroPat (Or.inl rfl)⟩

/-- C2: for every non-degenerate binary pattern the returned `PhiResult`
satisfies `phi = R * S + D` — exactly in the real-number model, hence in
particular within any floating-point tolerance such as `1e-9`. -/
theorem calculate_phi_decomposition (P : Pattern) (h1 : aliveCells P ≠ 0)
    (h2 : aliveCells P ≠ nCells P) :
    (calculate_phi P).phi
      = (calculate_phi P).R * (calculate_phi P).S + (calculate_phi P).D := by
  rw [calculate_phi_nondeg P (by tauto)]

/-- Witness for C2 at the concrete non-degenerate pattern `pat2`. -/
theorem calculate_phi_decomposition_witness :
    aliveCells pat2 ≠ 0 ∧ aliveCells pat2 ≠ nCells pat2
      ∧ (calculate_phi pat2).phi
          = (calculate_phi pat2).R * (calculate_phi pat2).S + (calculate_phi pat2).D :=
  ⟨by decide, by decide, calculate_phi_decomposition pat2 (by decide) (by decide)⟩

/-- C3: the integration component equals the spec's formula — the per-axis
wrap-around shift-and-compare difference counts summed over the `d` axes,
divided by `d * n` (`ℚ`-division, which agrees with the source's 0 fallback
when there are no edges). -/
theorem calculate_integration_matches_spec (P : Pattern) :
    calculate_integration P = S_spec P := by
  rw [calculate_integration_eq]
  unfold S_spec
  split
  · rfl
  · next h =>
    have h0 : P.shape.length * nCells P = 0 := by omega
    simp [h0]

/-- C4: for `m ≥ 1` the embedding has rank exactly one more than the input,
carries the input pattern exactly on the slice at index `⌊m / 2⌋` of the new
axis (a slice that is a valid index range of the output), and is 0 at every
position off that slice.  The model is a pure function, so the input pattern
is intrinsically not mutated. -/
theorem embed_midpoint_slice_spec (P : Pattern) (m : Nat) (hm : 1 ≤ m) :
    (embed P m).shape.length = P.shape.length + 1
  ∧ (∀ idx, (embed P m).data (idx ++ [m / 2]) = P.data idx)
  ∧ (∀ idx ∈ indices P.shape, idx ++ [m / 2] ∈ indices (embed P m).shape)
  ∧ (∀ idx, idx.getLast? ≠ some (m / 2) → (embed P m).data idx = false) :=
  ⟨by simp [embed], fun idx => embed_data_concat P m idx,
    fun idx h => embed_mem_indices P m hm idx h,
    fun idx h => embed_data_off_slice P m idx h⟩

/-- Witness for C4 at the concrete pattern `pat2` with new-axis extent 3. -/
theorem embed_midpoint_slice_spec_witness :
    1 ≤ 3 ∧ (embed pat2 3).shape.length = pat2.shape.length + 1
      ∧ (embed pat2 3).data ([0] ++ [3 / 2]) = pat2.data [0] :=
  ⟨by norm_num, (embed_midpoint_slice_spec pat2 3 (by norm_num)).1,
    (embed_midpoint_slice_spec pat2 3 (by norm_num)).2.1 [0]⟩

/-- C5: in every trial, a lower-rank Φ of 0 yields `ratio_phi = 0` and
`loss_pct = 100` (the model is a total function, so no exception occurs),
while a positive lower-rank Φ yields the quotient and the corresponding
loss percentage. -/
theorem trial_ratio_loss_policy (P : Pattern) (m : Nat) :
    ((runTrial P m).phi_lower = 0 →
      (runTrial P m).ratio_phi = 0 ∧ (runTrial P m).loss_pct = 100)
  ∧ (0 < (runTrial P m).phi_lower →
      (runTrial P m).ratio_phi = (runTrial P m).phi_higher / (runTrial P m).phi_lower
      ∧ (runTrial P m).loss_pct
        = (1 - (runTrial P m).phi_higher / (runTrial P m).phi_lower) * 100) := by
  constructor
  · intro h
    rw [runTrial_phi_lower] at h
    have hr : (runTrial P m).ratio_phi = 0 := by
      rw [runTrial_ratio_phi, h]
      simp
    exact ⟨hr, by rw [runTrial_loss_pct, hr]; norm_num⟩
  · intro h
    rw [runTrial_phi_lower] at h
    have hr : (runTrial P m).ratio_phi
        = (runTrial P m).phi_higher / (runTrial P m).phi_lower := by
      rw [runTrial_ratio_phi, if_pos h, runTrial_phi_higher, runTrial_phi_lower]
    exact ⟨hr, by rw [runTrial_loss_pct, hr]⟩

/-- Witness for C5: the zero branch at the uniform-zero pattern and the
positive branch at the non-degenerate pattern `pat2`. -/
theorem trial_ratio_loss_policy_witness :
    ((runTrial zeroPat 3).phi_lower = 0 ∧ (runTrial zeroPat 3).ratio_phi = 0
      ∧ (runTrial zeroPat 3).loss_pct = 100)
  ∧ (0 < (runTrial pat2 2).phi_lower
      ∧ (runTrial pat2 2).ratio_phi
          = (runTrial pat2 2).phi_higher / (runTrial pat2 2).phi_lower) := by
  have h0 : (runTrial zeroPat 3).phi_lower = 0 := by
    rw [runTrial_phi_lower, calculate_phi_degenerate zeroPat (Or.inl rfl)]
  have hp : 0 < (runTrial pat2 2).phi_lower := by
    rw [runTrial_phi_lower]
    exact calculate_phi_pos pat2 (by decide)
  obtain ⟨hr0, hl0⟩ := (trial_ratio_loss_policy zeroPat 3).1 h0
  obtain ⟨hrp, -⟩ := (trial_ratio_loss_policy pat2 2).2 hp
  exact ⟨⟨h0, hr0, hl0⟩, hp, hrp⟩

/-- C6: for every non-empty binary pattern, each of the three components
`R`, `S`, `D` returned by `calculate_phi` lies in `[0, 1]`. -/
theorem phi_components_mem_unit_interval (P : Pattern) (_h : 0 < nCells P) :
    (0 ≤ (calculate_phi P).R ∧ (calculate_phi P).R ≤ 1)
  ∧ (0 ≤ (calculate_phi P).S ∧ (calculate_phi P).S ≤ 1)
  ∧ (0 ≤ (calculate_phi P).D ∧ (calculate_phi P).D ≤ 1) := by
  by_cases hd : aliveCells P = 0 ∨ aliveCells P = nCells P
  · rw [calculate_phi_degenerate P hd]
    norm_num
  · obtain ⟨hp0, hp1⟩ := nondeg_frac_bounds P hd
    rw [calculate_phi_nondeg P hd]
    dsimp only
    refine ⟨⟨hp0.le, hp1.le⟩, ⟨?_, ?_⟩, ⟨?_, ?_⟩⟩
    · exact_mod_cast calculate_integration_nonneg P
    · exact_mod_cast calculate_integration_le_one P
    · rw [entropy_eq_binEntropy_div_log]
      exact div_nonneg (Real.binEntropy_nonneg hp0.le hp1.le)
        (Real.log_nonneg one_le_two)
    · rw [entropy_eq_binEntropy_div_log, div_le_one (Real.log_pos one_lt_two)]
      exact Real.binEntropy_le_log_two

/-- Witness for C6 at the concrete non-degenerate pattern `pat2`. -/
theorem phi_components_mem_unit_interval_witness :
    0 < nCells pat2
  ∧ ((0 ≤ (calculate_phi pat2).R ∧ (calculate_phi pat2).R ≤ 1)
      ∧ (0 ≤ (calculate_phi pat2).S ∧ (calculate_phi pat2).S ≤ 1)
      ∧ (0 ≤ (calculate_phi pat2).D ∧ (calculate_phi pat2).D ≤ 1)) :=
  ⟨by decide, phi_components_mem_unit_interval pat2 (by decide)⟩

/-- C7 counterexample: the validator constructor performs no configuration
validation — a non-positive pattern count and a non-positive grid extent are
both accepted without any error. -/
theorem validator_accepts_invalid_config :
    mkValidator 0 (-1) = Except.ok ⟨0, -1⟩
      ∧ mkValidator (-5) 20 = Except.ok ⟨-5, 20⟩ :=
  ⟨rfl, rfl⟩

/-- C7 amended: no configuration validation is performed — the constructor
accepts every pattern count and grid extent, including non-positive ones;
only an embedding with target extent 0 fails, and it does so at
slice-assignment time (an index error), not as an up-front configuration
check. -/
theorem validator_no_config_check :
    (∀ n_patterns grid_size : Int,
      mkValidator n_patterns grid_size = Except.ok ⟨n_patterns, grid_size⟩)
  ∧ (∀ P : Pattern, embedChecked P 0 = none) :=
  ⟨fun _ _ => rfl, fun _ => rfl⟩

/-- C8: the 20×20 checkerboard (cell `(i, j)` set iff `i + j` is even) has
`phi` strictly greater than 1 — its exact value is `3 / 2`. -/
theorem checkerboard_phi_gt_one : 1 < (calculate_phi checkerboard).phi := by
  rw [checkerboard_phi_value]
  norm_num

/-- C9: for `m ≥ 1` the embedding preserves the total set-cell count, and
consequently the `alive_cells_higher` field of every trial record equals its
`alive_cells_lower` field. -/
theorem embed_preserves_alive_cells (P : Pattern) (m : Nat) (hm : 1 ≤ m) :
    aliveCells (embed P m) = aliveCells P
  ∧ (runTrial P m).alive_cells_higher = (runTrial P m).alive_cells_lower := by
  have h := aliveCells_embed P m hm
  exact ⟨h, by rw [runTrial_alive_higher, runTrial_alive_lower, h]⟩

/-- Witness for C9 at the concrete pattern `pat2` with new-axis extent 2. -/
theorem embed_preserves_alive_cells_witness :
    1 ≤ 2 ∧ aliveCells (embed pat2 2) = aliveCells pat2
      ∧ (runTrial pat2 2).alive_cells_higher = (runTrial pat2 2).alive_cells_lower :=
  ⟨by norm_num, (embed_preserves_alive_cells pat2 2 (by norm_num)).1,
    (embed_preserves_alive_cells pat2 2 (by norm_num)).2⟩

/-- C10: `calculate_phi` returns `phi = 0` exactly on the degenerate
patterns; every non-degenerate pattern has strictly positive entropy and
non-negative `R` and `S`, hence strictly positive `phi`, so the validator's
ratio-equals-0 fallback can only trigger for a uniform lower-rank pattern. -/
theorem phi_eq_zero_iff_degenerate (P : Pattern) :
    (calculate_phi P).phi = 0 ↔ (aliveCells P = 0 ∨ aliveCells P = nCells P) := by
  constructor
  · intro h
    by_contra hnd
    exact (calculate_phi_pos P hnd).ne' h
  · intro h
    rw [calculate_phi_degenerate P h]

end DimensionalBoundaryLoss
